import Mathlib

/-!
# oitsuku: selection-and-install workflow

A shallow embedding of `src/main.go` (package `main`).

Conventions of the embedding.

* A Go `string` is an immutable byte sequence: `GoString := List Nat`.
  `+` is `++`, `==` is equality of the lists and `<` is `strLess`, the
  byte-wise lexicographic comparison of the Go runtime.  The literals of the
  source are all ASCII and are written `ascii "..."`.
* A Go `map` is the list of its key/value pairs in the order in which one
  `range` loop visits them; that order is unspecified in Go, so every theorem
  quantifies over the list.  The keys of a map are distinct, which is a
  hypothesis where it matters.
* `mapset.Set[string]` is a `Finset GoString`; a nil set (the `nil` that
  `main` passes to `renderRows`) is `none` of `Option (Finset GoString)`.
  The order in which `Iterator()` delivers the elements is unspecified, so
  `Install` receives it as the list `it`.
* `os.Exit(1)`, `log.Fatal` and a run-time panic end the process; functions
  that can reach them return `Except Nat _` (the exit code) or `Option _`
  (`none` is the panic).
* The widget `table.Model` of the bubbles library is kept as its row list and
  its cursor; how a key moves the cursor is the parameter `nav`.
-/

namespace Oitsuku

/-- Go `string`, as its bytes. -/
abbrev GoString := List Nat

/-- An ASCII string literal of the source, as a Go string. -/
def ascii (s : String) : GoString := s.data.map Char.toNat

/-- Go `a < b` on strings: byte-wise lexicographic, a proper prefix is smaller. -/
def strLess : GoString → GoString → Bool
  | [], [] => false
  | [], _ :: _ => true
  | _ :: _, [] => false
  | a :: as, b :: bs => if a < b then true else if b < a then false else strLess as bs

/-- Insertion of `x` into a list sorted by `less`. -/
def sortInsert {α : Type} (less : α → α → Bool) (x : α) : List α → List α
  | [] => [x]
  | y :: ys => if less x y then x :: y :: ys else y :: sortInsert less x ys

/-- The standard library's `sort.Slice(xs, less)`, with `less` on the
elements rather than on their indices.  The library only promises a
permutation of `xs` that is sorted by `less`; insertion sort (which the
library itself runs on short slices) stands for it here, and
`sortSlice_unique` shows that with distinct names every such result is the
same list. -/
def sortSlice {α : Type} (less : α → α → Bool) (xs : List α) : List α :=
  xs.foldr (sortInsert less) []

/-- The only `tea.Cmd` the program builds itself; a nil command is `none`. -/
inductive Cmd where
  | Quit
  deriving DecidableEq

/-- A `tea.Msg`: a key press with the text of `msg.String()`, or any other message. -/
inductive Msg where
  | KeyMsg (key : GoString)
  | other
  deriving DecidableEq

/-- The bubbles `table.Row`, a `[]string`. -/
abbrev Row := List GoString

/-- The bubbles `table.Model`, reduced to the rows and the cursor. -/
structure table.Model where
  rows : List Row
  cursor : Int
  deriving DecidableEq

/-- The library's `table.Model.SelectedRow`: the row under the cursor, nil (the
empty row) when the cursor is outside the rows.  (Earlier releases index
`m.rows[m.cursor]` without the guard and panic there instead.) -/
def table.Model.SelectedRow (t : table.Model) : Row :=
  if t.cursor < 0 ∨ t.cursor ≥ t.rows.length then [] else t.rows.getD t.cursor.toNat []

/-- The library's `table.Model.SetRows`: replaces the rows.  (Later releases also
pull a cursor beyond the last row back onto it; `Update` only calls `SetRows`
after the cursor was found on a row, with as many rows as entries, where that
changes nothing.) -/
def table.Model.SetRows (t : table.Model) (r : List Row) : table.Model :=
  { t with rows := r }

/-- The library's `table.Model.Update`: navigation moves the cursor (to
`nav t msg`), the rows stay, and the command is nil. -/
def table.Model.Update (nav : table.Model → Msg → Int) (t : table.Model) (msg : Msg) :
    table.Model × Option Cmd :=
  ({ t with cursor := nav t msg }, none)

/-- The source's `depVersions`. -/
structure depVersions where
  Current : GoString
  Wanted : GoString
  Latest : GoString
  deriving DecidableEq

/-- The source's `npmOutdated`, a `map[string]depVersions`. -/
abbrev npmOutdated := List (GoString × depVersions)

/-- The source's `outdatedDep`. -/
structure outdatedDep where
  Name : GoString
  Current : GoString
  Latest : GoString
  IsDev : Bool
  deriving DecidableEq

/-- The source's `packageJson`; `Dependencies` is a `map[string]string`. -/
structure packageJson where
  Dependencies : List (GoString × GoString)
  deriving DecidableEq

/-- The source's `model`, without the unused channel `done`. -/
structure model where
  table : table.Model
  outdated : List outdatedDep
  toUpdate : Finset GoString
  shouldInstall : Bool
  deriving DecidableEq

/-- The source's `getPackageJsonDeps`.  `manifest` is the result of reading and
decoding `./package.json`; `none` is a read or a decode error, which exits
with code 1. -/
def getPackageJsonDeps (manifest : Option packageJson) : Except Nat (Finset GoString) :=
  match manifest with
  | none => Except.error 1
  | some pj => Except.ok (pj.Dependencies.foldl (fun deps p => insert p.1 deps) ∅)

/-- The source's `getOutdated`.  `out` is the decoded output of
`npm outdated --json`; `none` is a decode error (`log.Fatal`, exit code 1). -/
def getOutdated (out : Option npmOutdated) (manifest : Option packageJson) :
    Except Nat (List outdatedDep) :=
  match out with
  | none => Except.error 1
  | some versions =>
    match getPackageJsonDeps manifest with
    | Except.error code => Except.error code
    | Except.ok depsSet =>
      let outdated := versions.foldl
        (fun acc p => acc ++ [outdatedDep.mk p.1 p.2.Current p.2.Latest (!decide (p.1 ∈ depsSet))]) []
      Except.ok (sortSlice (fun a b => strLess a.Name b.Name) outdated)

/-- The source's `renderRows`. -/
def renderRows (outdated : List outdatedDep) (toUpdate : Option (Finset GoString)) : List Row :=
  outdated.foldl
    (fun rows dep =>
      let selected :=
        match toUpdate with
        | some s => if dep.Name ∈ s then ascii "x" else ascii ""
        | none => ascii ""
      let isDev := if dep.IsDev then ascii "x" else ascii ""
      rows ++ [[selected, dep.Name, dep.Current, dep.Latest, isDev]])
    []

/-- The source's `model.Update`; `none` is a panic. -/
def model.Update (nav : table.Model → Msg → Int) (m : model) (msg : Msg) :
    Option (model × Option Cmd) :=
  let delegate : Option (model × Option Cmd) :=
    let r := m.table.Update nav msg
    some ({ m with table := r.1 }, r.2)
  match msg with
  | Msg.KeyMsg key =>
    if key = ascii "q" ∨ key = ascii "ctrl+c" ∨ key = ascii "esc" then
      some (m, some Cmd.Quit)
    else if key = ascii " " then
      match m.table.SelectedRow[1]? with
      | none => none
      | some thisDep =>
        let toUpdate :=
          if thisDep ∈ m.toUpdate then m.toUpdate.erase thisDep else insert thisDep m.toUpdate
        some ({ m with
                toUpdate := toUpdate
                table := m.table.SetRows (renderRows m.outdated (some toUpdate)) }, none)
    else if key = ascii "enter" then
      some ({ m with shouldInstall := true }, some Cmd.Quit)
    else delegate
  | Msg.other => delegate

/-- What a run of `Install` did: the argument lists of the `npm` invocations in
order, and the exit code when it ended the process (`none`: it returned). -/
structure Outcome where
  invocations : List (List GoString)
  exit : Option Nat
  deriving DecidableEq

/-- The closure `depsToArgs` of `Install`. -/
def depsToArgs (deps : List GoString) : List GoString :=
  deps.foldl (fun args depName => args ++ [depName ++ ascii "@latest"]) []

/-- The closure `isDevDep` of `Install`. -/
def isDevDep : List outdatedDep → GoString → Bool
  | [], _ => false
  | outdated :: rest, dep => if outdated.Name = dep then outdated.IsDev else isDevDep rest dep

/-- The closure `runInstall` of `Install`, after the outcome `p` so far.  `npm`
tells whether `cmd.Run()` succeeds on the given arguments. -/
def runInstall (npm : List GoString → Bool) (deps : List GoString) (isDev : Bool)
    (p : Outcome) : Outcome :=
  let args := [ascii "i"]
  let args := if isDev then args ++ [ascii "-D"] else args
  let args := args ++ depsToArgs deps
  if npm args then { p with invocations := p.invocations ++ [args] }
  else { invocations := p.invocations ++ [args], exit := some 1 }

/-- The split of the selected names that `Install` computes: `(deps, devDeps)`. -/
def splitDeps (outdated : List outdatedDep) (it : List GoString) :
    List GoString × List GoString :=
  it.foldl
    (fun acc dep =>
      if isDevDep outdated dep then (acc.1, acc.2 ++ [dep]) else (acc.1 ++ [dep], acc.2))
    ([], [])

/-- The source's `model.Install`.  `it` is the sequence in which
`m.toUpdate.Iterator()` delivers the selected names. -/
def model.Install (m : model) (it : List GoString) (npm : List GoString → Bool) : Outcome :=
  let groups := splitDeps m.outdated it
  let deps := groups.1
  let devDeps := groups.2
  let p : Outcome := { invocations := [], exit := none }
  let p := if deps.length > 0 then runInstall npm deps false p else p
  if p.exit.isSome then p
  else if devDeps.length > 0 then runInstall npm devDeps true p else p

/-- The state that `main` hands to the interactive program. -/
def initialModel (outdated : List outdatedDep) : model :=
  { table := { rows := renderRows outdated none, cursor := 0 }
    outdated := outdated
    toUpdate := ∅
    shouldInstall := false }

/-- The end of `main`, after the interactive program returned. -/
def mainInstall (m : model) (it : List GoString) (npm : List GoString → Bool) : Outcome :=
  if m.shouldInstall then m.Install it npm else { invocations := [], exit := none }

/-- The interactive program: `Update` handles the messages one after the
other, each on the state the previous call returned (`none`: a call panicked).
The commands are dropped, so the run also covers messages that arrive after a
quit command was returned. -/
def runUpdates (nav : table.Model → Msg → Int) (m : model) : List Msg → Option model
  | [] => some m
  | msg :: rest =>
    match m.Update nav msg with
    | none => none
    | some r => runUpdates nav r.1 rest

/-- The runtime-group invocation in the words of the specification: none for an
empty group, else one with the arguments `i` and every name pinned to
`@latest`. -/
def runtimeInvocation (runtime : List GoString) : List (List GoString) :=
  if runtime = [] then [] else [[ascii "i"] ++ runtime.map (fun n => n ++ ascii "@latest")]

/-- The dev-group invocation in the words of the specification: none for an
empty group, else one with the arguments `i`, `-D` and every name pinned to
`@latest`. -/
def devInvocation (dev : List GoString) : List (List GoString) :=
  if dev = [] then [] else [[ascii "i", ascii "-D"] ++ dev.map (fun n => n ++ ascii "@latest")]

/-! ## The order of Go strings -/

theorem strLess_irrefl (a : GoString) : strLess a a = false := by
  induction a with
  | nil => rfl
  | cons x xs ih => simp [strLess, ih]

theorem strLess_asymm (a b : GoString) : strLess a b = true → strLess b a = false := by
  induction a generalizing b with
  | nil => cases b <;> simp [strLess]
  | cons x xs ih =>
    cases b with
    | nil => simp [strLess]
    | cons y ys =>
      simp only [strLess]
      intro h
      by_cases hxy : x < y
      · have hyx : ¬ y < x := by omega
        simp [hyx, hxy]
      · by_cases hyx : y < x
        · simp [hxy, hyx] at h
        · simp [hxy, hyx] at h ⊢
          exact ih ys h

theorem strLess_trans (a b c : GoString) :
    strLess a b = true → strLess b c = true → strLess a c = true := by
  induction a generalizing b c with
  | nil =>
    cases b with
    | nil => simp [strLess]
    | cons y ys => cases c <;> simp [strLess]
  | cons x xs ih =>
    cases b with
    | nil => simp [strLess]
    | cons y ys =>
      cases c with
      | nil => simp [strLess]
      | cons z zs =>
        simp only [strLess]
        intro h1 h2
        by_cases hxy : x < y
        · by_cases hyz : y < z
          · have : x < z := by omega
            simp [this]
          · by_cases hzy : z < y
            · simp [hyz, hzy] at h2
            · have : x < z := by omega
              simp [this]
        · by_cases hyx : y < x
          · simp [hxy, hyx] at h1
          · simp [hxy, hyx] at h1
            have hxy2 : x = y := by omega
            subst hxy2
            by_cases hxz : x < z
            · simp [hxz]
            · by_cases hzx : z < x
              · simp [hxz, hzx] at h2
              · simp [hxz, hzx] at h2 ⊢
                exact ih ys zs h1 h2

theorem strLess_connected (a b : GoString) :
    strLess a b = false → strLess b a = false → a = b := by
  induction a generalizing b with
  | nil => cases b <;> simp [strLess]
  | cons x xs ih =>
    cases b with
    | nil => simp [strLess]
    | cons y ys =>
      simp only [strLess]
      intro h1 h2
      by_cases hxy : x < y
      · simp [hxy] at h1
      · by_cases hyx : y < x
        · simp [hyx] at h2
        · simp [hxy, hyx] at h1 h2
          have hxy2 : x = y := by omega
          rw [hxy2, ih ys h1 h2]

theorem strLess_of_not_ge (a b c : GoString) :
    strLess b a = false → strLess c b = false → strLess c a = false := by
  intro h1 h2
  cases hca : strLess c a with
  | false => rfl
  | true =>
    cases hbc : strLess b c with
    | true => rw [strLess_trans b c a hbc hca] at h1; exact h1
    | false =>
      have : c = b := strLess_connected c b h2 hbc
      rw [this] at hca
      rw [hca] at h1
      exact h1


/-! ## `sort.Slice` -/

theorem sortInsert_perm {α : Type} (less : α → α → Bool) (x : α) (l : List α) :
    List.Perm (sortInsert less x l) (x :: l) := by
  induction l with
  | nil => exact List.Perm.refl _
  | cons y ys ih =>
    simp only [sortInsert]
    split
    · exact List.Perm.refl _
    · exact (List.Perm.cons y ih).trans (List.Perm.swap x y ys)

theorem sortSlice_perm {α : Type} (less : α → α → Bool) (l : List α) :
    List.Perm (sortSlice less l) l := by
  induction l with
  | nil => exact List.Perm.refl _
  | cons x xs ih =>
    show List.Perm (sortInsert less x (sortSlice less xs)) (x :: xs)
    exact (sortInsert_perm less x _).trans (List.Perm.cons x ih)

theorem sortInsert_pairwise {α : Type} (less : α → α → Bool)
    (hasymm : ∀ a b, less a b = true → less b a = false)
    (hge : ∀ a b c, less b a = false → less c b = false → less c a = false)
    (x : α) (l : List α) (hl : List.Pairwise (fun a b => less b a = false) l) :
    List.Pairwise (fun a b => less b a = false) (sortInsert less x l) := by
  induction l with
  | nil => simp [sortInsert]
  | cons y ys ih =>
    rw [List.pairwise_cons] at hl
    simp only [sortInsert]
    split
    · rename_i hxy
      refine List.Pairwise.cons ?_ (List.Pairwise.cons hl.1 hl.2)
      intro z hz
      rcases List.mem_cons.1 hz with rfl | hz
      · exact hasymm _ _ hxy
      · exact hge _ _ _ (hasymm _ _ hxy) (hl.1 z hz)
    · rename_i hxy
      refine List.Pairwise.cons ?_ (ih hl.2)
      intro z hz
      rcases List.mem_cons.1 ((sortInsert_perm less x ys).subset hz) with rfl | hz
      · simpa using hxy
      · exact hl.1 z hz

theorem sortSlice_pairwise {α : Type} (less : α → α → Bool)
    (hasymm : ∀ a b, less a b = true → less b a = false)
    (hge : ∀ a b c, less b a = false → less c b = false → less c a = false)
    (l : List α) : List.Pairwise (fun a b => less b a = false) (sortSlice less l) := by
  induction l with
  | nil => exact List.Pairwise.nil
  | cons x xs ih => exact sortInsert_pairwise less hasymm hge x _ ih

/-- With distinct names, sorting by name gives a strictly ascending list. -/
theorem sortSlice_names_ascending (l : List outdatedDep) (hnd : (l.map outdatedDep.Name).Nodup) :
    List.Pairwise (fun a b => strLess a.Name b.Name = true)
      (sortSlice (fun a b => strLess a.Name b.Name) l) := by
  have hp := sortSlice_perm (fun a b : outdatedDep => strLess a.Name b.Name) l
  have hnd2 : ((sortSlice (fun a b => strLess a.Name b.Name) l).map outdatedDep.Name).Nodup :=
    (List.Perm.nodup_iff (hp.map outdatedDep.Name)).2 hnd
  have hs := sortSlice_pairwise (fun a b : outdatedDep => strLess a.Name b.Name)
    (fun a b => strLess_asymm a.Name b.Name)
    (fun a b c => strLess_of_not_ge a.Name b.Name c.Name) l
  rw [List.Nodup, List.pairwise_map] at hnd2
  refine (hs.and hnd2).imp ?_
  intro a b hab
  cases h : strLess a.Name b.Name with
  | true => rfl
  | false => exact absurd (strLess_connected a.Name b.Name h hab.1) hab.2

/-- Every permutation of `l` that is strictly ascending by name is the list
that `sortSlice` returns: the result of `sort.Slice` does not depend on the
sorting algorithm when the names are distinct. -/
theorem sortSlice_unique (l r : List outdatedDep) (hperm : List.Perm r l)
    (hsorted : List.Pairwise (fun a b => strLess a.Name b.Name = true) r) :
    r = sortSlice (fun a b => strLess a.Name b.Name) l := by
  have hnd : (l.map outdatedDep.Name).Nodup := by
    refine (List.Perm.nodup_iff (hperm.map outdatedDep.Name)).1 ?_
    rw [List.Nodup, List.pairwise_map]
    refine hsorted.imp ?_
    intro a b hab heq
    rw [heq, strLess_irrefl] at hab
    exact Bool.noConfusion hab
  haveI : IsAntisymm outdatedDep (fun a b => strLess a.Name b.Name = true) :=
    ⟨fun a b h1 h2 => by rw [strLess_asymm _ _ h1] at h2; exact Bool.noConfusion h2⟩
  exact List.eq_of_perm_of_sorted (hperm.trans (sortSlice_perm _ l).symm) hsorted
    (sortSlice_names_ascending l hnd)

/-! ## Loops that append -/

theorem foldl_append_singleton {α β : Type} (f : α → β) (l : List α) (init : List β) :
    l.foldl (fun acc x => acc ++ [f x]) init = init ++ l.map f := by
  induction l generalizing init with
  | nil => simp
  | cons x xs ih => simp [ih]

theorem mem_foldl_insert (l : List (GoString × GoString)) (s : Finset GoString) (n : GoString) :
    n ∈ l.foldl (fun deps p => insert p.1 deps) s ↔ n ∈ s ∨ n ∈ l.map Prod.fst := by
  induction l generalizing s with
  | nil => simp
  | cons x xs ih =>
    simp only [List.foldl_cons, ih, Finset.mem_insert, List.map_cons, List.mem_cons]
    tauto

theorem renderRows_eq_map (outdated : List outdatedDep) (toUpdate : Option (Finset GoString)) :
    renderRows outdated toUpdate =
      outdated.map (fun dep =>
        [match toUpdate with
          | some s => if dep.Name ∈ s then ascii "x" else ascii ""
          | none => ascii "",
         dep.Name, dep.Current, dep.Latest, if dep.IsDev then ascii "x" else ascii ""]) := by
  unfold renderRows
  rw [foldl_append_singleton]
  simp

theorem getOutdated_eq (versions : npmOutdated) (pj : packageJson) :
    getOutdated (some versions) (some pj) =
      Except.ok (sortSlice (fun a b => strLess a.Name b.Name)
        (versions.map (fun p => outdatedDep.mk p.1 p.2.Current p.2.Latest
          (!decide (p.1 ∈ pj.Dependencies.foldl (fun deps q => insert q.1 deps) (∅ : Finset GoString)))))) := by
  simp only [getOutdated, getPackageJsonDeps]
  rw [foldl_append_singleton]
  simp


/-! ## The classifier and the rows -/

/-- C1: `getOutdated` returns a list, every key of the query map has an entry
in it, and every entry has `IsDev` equal to the negation of the membership of
its `Name` in the set that `getPackageJsonDeps` builds, whose members are
exactly the keys of the manifest's `dependencies`: `IsDev` holds if and only
if the name is absent from `dependencies`. -/
theorem getOutdated_isDev (versions : npmOutdated) (pj : packageJson) :
    ∃ depsSet out,
      getPackageJsonDeps (some pj) = Except.ok depsSet ∧
      getOutdated (some versions) (some pj) = Except.ok out ∧
      (∀ n, n ∈ depsSet ↔ n ∈ pj.Dependencies.map Prod.fst) ∧
      (∀ p ∈ versions, ∃ e ∈ out, e.Name = p.1) ∧
      (∀ e ∈ out, e.IsDev = !decide (e.Name ∈ depsSet)) ∧
      (∀ e ∈ out, e.IsDev = true ↔ e.Name ∉ pj.Dependencies.map Prod.fst) := by
  refine ⟨_, _, rfl, getOutdated_eq versions pj, ?_, ?_, ?_, ?_⟩
  · intro n
    simp [mem_foldl_insert]
  · intro p hp
    refine ⟨_, (sortSlice_perm _ _).symm.subset (List.mem_map_of_mem _ hp), rfl⟩
  · intro e he
    have he2 := (sortSlice_perm _ _).subset he
    rw [List.mem_map] at he2
    obtain ⟨p, _, rfl⟩ := he2
    rfl
  · intro e he
    have he2 := (sortSlice_perm _ _).subset he
    rw [List.mem_map] at he2
    obtain ⟨p, _, rfl⟩ := he2
    simp [mem_foldl_insert]

/-- The scenario of C1: manifest `a`, query keys `a` and `b` (visited as `b`, `a`)
give the entries `a` (not dev) and `b` (dev), in that order. -/
theorem getOutdated_scenario :
    getOutdated
      (some [(ascii "b", depVersions.mk (ascii "0.1.0") (ascii "0.1.0") (ascii "0.2.0")),
             (ascii "a", depVersions.mk (ascii "1.0.0") (ascii "1.2.0") (ascii "2.0.0"))])
      (some (packageJson.mk [(ascii "a", ascii "1.0.0")])) =
    Except.ok [outdatedDep.mk (ascii "a") (ascii "1.0.0") (ascii "2.0.0") false,
               outdatedDep.mk (ascii "b") (ascii "0.1.0") (ascii "0.2.0") true] := by
  rfl

/-- C2: for a query map (its keys distinct, visited in any order)
`getOutdated` returns a list that has exactly one entry per key, carrying the
key's current and latest versions, and whose names are strictly ascending in
the byte-wise order of Go strings; the rows of `renderRows` carry the names in
the same order, so the Name column is strictly ascending too. -/
theorem getOutdated_sorted (versions : npmOutdated) (pj : packageJson)
    (toUpdate : Option (Finset GoString)) (hkeys : (versions.map Prod.fst).Nodup) :
    ∃ out,
      getOutdated (some versions) (some pj) = Except.ok out ∧
      List.Perm (out.map (fun e => (e.Name, e.Current, e.Latest)))
        (versions.map (fun p => (p.1, p.2.Current, p.2.Latest))) ∧
      (out.map outdatedDep.Name).Nodup ∧
      List.Pairwise (fun a b => strLess a b = true) (out.map outdatedDep.Name) ∧
      (renderRows out toUpdate).map (fun row => row[1]?) = out.map (fun e => some e.Name) ∧
      List.Pairwise (fun r1 r2 => ∃ a b, r1[1]? = some a ∧ r2[1]? = some b ∧ strLess a b = true)
        (renderRows out toUpdate) := by
  have hnames : ∀ (d : Finset GoString),
      ((versions.map (fun p => outdatedDep.mk p.1 p.2.Current p.2.Latest
        (!decide (p.1 ∈ d)))).map outdatedDep.Name) = versions.map Prod.fst := by
    intro d
    simp [Function.comp_def]
  have hnd := hkeys
  rw [← hnames (pj.Dependencies.foldl (fun deps q => insert q.1 deps) (∅ : Finset GoString))] at hnd
  have hasc := sortSlice_names_ascending _ hnd
  have hperm := sortSlice_perm (fun a b : outdatedDep => strLess a.Name b.Name)
    (versions.map (fun p => outdatedDep.mk p.1 p.2.Current p.2.Latest
      (!decide (p.1 ∈ pj.Dependencies.foldl (fun deps q => insert q.1 deps) (∅ : Finset GoString)))))
  refine ⟨_, getOutdated_eq versions pj, ?_, ?_, ?_, ?_, ?_⟩
  · have h := hperm.map (fun e : outdatedDep => (e.Name, e.Current, e.Latest))
    simpa [Function.comp_def] using h
  · exact (List.Perm.nodup_iff (hperm.map outdatedDep.Name)).2 hnd
  · rw [List.pairwise_map]
    exact hasc
  · rw [renderRows_eq_map]
    simp [Function.comp_def]
  · rw [renderRows_eq_map, List.pairwise_map]
    refine hasc.imp ?_
    intro a b hab
    exact ⟨a.Name, b.Name, by simp, by simp, hab⟩

/-- The scenario of C2: query keys visited as `b`, `a` are rendered as `a`, `b`. -/
theorem getOutdated_sorted_witness :
    ([(ascii "b", depVersions.mk [] [] []), (ascii "a", depVersions.mk [] [] [])].map
        Prod.fst).Nodup ∧
    ∃ out,
      getOutdated (some [(ascii "b", depVersions.mk [] [] []), (ascii "a", depVersions.mk [] [] [])])
        (some (packageJson.mk [])) = Except.ok out ∧
      (renderRows out none).map (fun row => row[1]?) = [some (ascii "a"), some (ascii "b")] := by
  refine ⟨by decide, ?_⟩
  obtain ⟨out, h1, -, -, -, h5, -⟩ :=
    getOutdated_sorted [(ascii "b", depVersions.mk [] [] []), (ascii "a", depVersions.mk [] [] [])]
      (packageJson.mk []) none (by decide)
  refine ⟨out, h1, ?_⟩
  rw [h5]
  have h2 : getOutdated
      (some [(ascii "b", depVersions.mk [] [] []), (ascii "a", depVersions.mk [] [] [])])
      (some (packageJson.mk [])) =
      Except.ok [outdatedDep.mk (ascii "a") [] [] true, outdatedDep.mk (ascii "b") [] [] true] := by
    rfl
  rw [h2] at h1
  cases h1
  rfl

/-- C3: `renderRows` returns one row per entry, in the order of the entries;
the second column of a row is the entry's name, and the first column is the
marker `x` if and only if the selection set is not nil and holds that name.
With a nil selection set the first column of every row is empty. -/
theorem renderRows_marker (outdated : List outdatedDep) (toUpdate : Option (Finset GoString)) :
    (renderRows outdated toUpdate).length = outdated.length ∧
    List.Forall₂
      (fun dep row =>
        ∃ name, row[1]? = some name ∧ name = dep.Name ∧
          (row[0]? = some (ascii "x") ↔ ∃ s, toUpdate = some s ∧ name ∈ s))
      outdated (renderRows outdated toUpdate) ∧
    (renderRows outdated none).map (fun row => row[0]?) = outdated.map (fun _ => some (ascii "")) := by
  refine ⟨?_, ?_, ?_⟩
  · rw [renderRows_eq_map, List.length_map]
  · rw [renderRows_eq_map, List.forall₂_map_right_iff]
    refine List.forall₂_same.2 ?_
    intro dep _
    refine ⟨dep.Name, by simp, rfl, ?_⟩
    cases toUpdate with
    | none => simp; decide
    | some s =>
      by_cases h : dep.Name ∈ s
      · simp [h]
      · simp [h]; decide
  · rw [renderRows_eq_map, List.map_map]
    exact List.map_congr_left (fun dep _ => rfl)


/-! ## Key handling -/

theorem Update_toggle (nav : table.Model → Msg → Int) (m : model) (thisDep : GoString)
    (h : m.table.SelectedRow[1]? = some thisDep) :
    m.Update nav (Msg.KeyMsg (ascii " ")) =
      some ({ m with
              toUpdate :=
                if thisDep ∈ m.toUpdate then m.toUpdate.erase thisDep
                else insert thisDep m.toUpdate
              table := m.table.SetRows (renderRows m.outdated
                (some (if thisDep ∈ m.toUpdate then m.toUpdate.erase thisDep
                  else insert thisDep m.toUpdate))) }, none) := by
  have h1 : ¬ (ascii " " = ascii "q" ∨ ascii " " = ascii "ctrl+c" ∨ ascii " " = ascii "esc") := by
    decide
  simp only [model.Update, h1, if_false, if_true, h]

theorem Update_toggle_none (nav : table.Model → Msg → Int) (m : model)
    (h : m.table.SelectedRow[1]? = none) :
    m.Update nav (Msg.KeyMsg (ascii " ")) = none := by
  have h1 : ¬ (ascii " " = ascii "q" ∨ ascii " " = ascii "ctrl+c" ∨ ascii " " = ascii "esc") := by
    decide
  simp only [model.Update, h1, if_false, if_true, h]

theorem Update_enter (nav : table.Model → Msg → Int) (m : model) :
    m.Update nav (Msg.KeyMsg (ascii "enter")) =
      some ({ m with shouldInstall := true }, some Cmd.Quit) := by
  have h1 : ¬ (ascii "enter" = ascii "q" ∨ ascii "enter" = ascii "ctrl+c" ∨
      ascii "enter" = ascii "esc") := by decide
  have h2 : ¬ (ascii "enter" = ascii " ") := by decide
  simp only [model.Update, h1, h2, if_false, if_true]

theorem Update_cancel (nav : table.Model → Msg → Int) (m : model) (key : GoString)
    (h : key = ascii "q" ∨ key = ascii "ctrl+c" ∨ key = ascii "esc") :
    m.Update nav (Msg.KeyMsg key) = some (m, some Cmd.Quit) := by
  simp only [model.Update, h, if_true]

/-- The row under the cursor, when the rows are a rendering of the entries and
the cursor is on a row: its second column is the name of the entry at the
cursor. -/
theorem SelectedRow_name (t : table.Model) (outdated : List outdatedDep)
    (sel : Option (Finset GoString)) (hrows : t.rows = renderRows outdated sel)
    (hlo : 0 ≤ t.cursor) (hhi : t.cursor < t.rows.length) :
    ∃ dep, outdated[t.cursor.toNat]? = some dep ∧ t.SelectedRow[1]? = some dep.Name := by
  have hlen : t.rows.length = outdated.length := by
    rw [hrows, renderRows_eq_map, List.length_map]
  have hi : t.cursor.toNat < outdated.length := by omega
  refine ⟨outdated[t.cursor.toNat], List.getElem?_eq_getElem hi, ?_⟩
  have hguard : ¬ (t.cursor < 0 ∨ t.cursor ≥ t.rows.length) := by omega
  simp only [table.Model.SelectedRow, hguard, if_false]
  rw [hrows, renderRows_eq_map, List.getD_eq_getElem?_getD, List.getElem?_map,
    List.getElem?_eq_getElem hi]
  simp

/-- Whatever the cursor, a name read from the row under it is the name of an
entry when the rows are a rendering of the entries. -/
theorem SelectedRow_mem (t : table.Model) (outdated : List outdatedDep)
    (sel : Option (Finset GoString)) (hrows : t.rows = renderRows outdated sel)
    (name : GoString) (h : t.SelectedRow[1]? = some name) :
    ∃ e ∈ outdated, e.Name = name := by
  by_cases hguard : t.cursor < 0 ∨ t.cursor ≥ t.rows.length
  · simp [table.Model.SelectedRow, hguard] at h
  · have hlo : 0 ≤ t.cursor := by omega
    have hhi : t.cursor < t.rows.length := by omega
    obtain ⟨dep, hdep, hname⟩ := SelectedRow_name t outdated sel hrows hlo hhi
    rw [hname] at h
    exact ⟨dep, List.getElem?_mem hdep, Option.some.inj h⟩


/-- C4: in a state whose rows are a rendering of the entries and whose cursor is
on a row, the toggle key is handled, flips the membership of the highlighted
name and of no other name, and re-renders the rows with the new selection;
the same package is still highlighted, and a second toggle gives back the
selection set from before the first. -/
theorem Update_toggle_twice (nav : table.Model → Msg → Int) (m : model)
    (sel : Option (Finset GoString)) (hrows : m.table.rows = renderRows m.outdated sel)
    (hlo : 0 ≤ m.table.cursor) (hhi : m.table.cursor < m.table.rows.length) :
    ∃ name m1 m2,
      m.table.SelectedRow[1]? = some name ∧
      m.Update nav (Msg.KeyMsg (ascii " ")) = some (m1, none) ∧
      (name ∈ m1.toUpdate ↔ name ∉ m.toUpdate) ∧
      (∀ n, n ≠ name → (n ∈ m1.toUpdate ↔ n ∈ m.toUpdate)) ∧
      m1.table.rows = renderRows m.outdated (some m1.toUpdate) ∧
      m1.table.SelectedRow[1]? = some name ∧
      m1.Update nav (Msg.KeyMsg (ascii " ")) = some (m2, none) ∧
      m2.toUpdate = m.toUpdate := by
  obtain ⟨dep, hdep, hname⟩ := SelectedRow_name m.table m.outdated sel hrows hlo hhi
  have hlen : m.table.rows.length = m.outdated.length := by
    rw [hrows, renderRows_eq_map, List.length_map]
  have h1 := Update_toggle nav m dep.Name hname
  have hname1 : ∀ s : Finset GoString,
      (m.table.SetRows (renderRows m.outdated (some s))).SelectedRow[1]? = some dep.Name := by
    intro s
    obtain ⟨dep2, hdep2, hname2⟩ := SelectedRow_name
      (m.table.SetRows (renderRows m.outdated (some s))) m.outdated (some s) rfl hlo
      (by simp only [table.Model.SetRows, renderRows_eq_map, List.length_map]; omega)
    have hcur : (m.table.SetRows (renderRows m.outdated (some s))).cursor = m.table.cursor := rfl
    rw [hcur, hdep] at hdep2
    rw [hname2, ← Option.some.inj hdep2]
  by_cases hmem : dep.Name ∈ m.toUpdate
  · simp only [hmem, if_true] at h1
    have h2 := Update_toggle nav
      { m with
        toUpdate := m.toUpdate.erase dep.Name
        table := m.table.SetRows (renderRows m.outdated (some (m.toUpdate.erase dep.Name))) }
      dep.Name (hname1 (m.toUpdate.erase dep.Name))
    simp only [Finset.mem_erase, ne_eq, not_true_eq_false, false_and, if_false] at h2
    refine ⟨dep.Name, _, _, hname, h1, ?_, ?_, rfl, hname1 _, h2, ?_⟩
    · simp [hmem]
    · intro n hn
      simp [hn]
    · exact Finset.insert_erase hmem
  · simp only [hmem, if_false] at h1
    have h2 := Update_toggle nav
      { m with
        toUpdate := insert dep.Name m.toUpdate
        table := m.table.SetRows (renderRows m.outdated (some (insert dep.Name m.toUpdate))) }
      dep.Name (hname1 (insert dep.Name m.toUpdate))
    simp only [Finset.mem_insert, true_or, if_true] at h2
    refine ⟨dep.Name, _, _, hname, h1, ?_, ?_, rfl, hname1 _, h2, ?_⟩
    · simp [hmem]
    · intro n hn
      simp [hn]
    · exact Finset.erase_insert hmem

/-- An instance of C4: one entry `a`, nothing selected, cursor on the first row. -/
theorem Update_toggle_twice_witness :
    ∃ name m1 m2,
      (initialModel [outdatedDep.mk (ascii "a") [] [] false]).table.SelectedRow[1]? = some name ∧
      (initialModel [outdatedDep.mk (ascii "a") [] [] false]).Update (fun t _ => t.cursor)
        (Msg.KeyMsg (ascii " ")) = some (m1, none) ∧
      (name ∈ m1.toUpdate ↔
        name ∉ (initialModel [outdatedDep.mk (ascii "a") [] [] false]).toUpdate) ∧
      (∀ n, n ≠ name → (n ∈ m1.toUpdate ↔
        n ∈ (initialModel [outdatedDep.mk (ascii "a") [] [] false]).toUpdate)) ∧
      m1.table.rows = renderRows [outdatedDep.mk (ascii "a") [] [] false] (some m1.toUpdate) ∧
      m1.table.SelectedRow[1]? = some name ∧
      m1.Update (fun t _ => t.cursor) (Msg.KeyMsg (ascii " ")) = some (m2, none) ∧
      m2.toUpdate = (initialModel [outdatedDep.mk (ascii "a") [] [] false]).toUpdate :=
  Update_toggle_twice (fun t _ => t.cursor)
    (initialModel [outdatedDep.mk (ascii "a") [] [] false]) none rfl (by decide) (by decide)

/-- One call of `Update` keeps the entries, keeps the rows a rendering of the
entries, and keeps every selected name the name of an entry. -/
theorem Update_invariant (nav : table.Model → Msg → Int) (outdated : List outdatedDep)
    (msg : Msg) (m : model) (r : model × Option Cmd)
    (hout : m.outdated = outdated)
    (hrows : ∃ sel, m.table.rows = renderRows outdated sel)
    (hsel : ∀ n ∈ m.toUpdate, ∃ e ∈ outdated, e.Name = n)
    (hstep : m.Update nav msg = some r) :
    r.1.outdated = outdated ∧ (∃ sel, r.1.table.rows = renderRows outdated sel) ∧
      ∀ n ∈ r.1.toUpdate, ∃ e ∈ outdated, e.Name = n := by
  obtain ⟨sel, hsel0⟩ := hrows
  cases msg with
  | other =>
    simp only [model.Update, table.Model.Update, Option.some.injEq] at hstep
    subst hstep
    exact ⟨hout, ⟨sel, hsel0⟩, hsel⟩
  | KeyMsg key =>
    by_cases hq : key = ascii "q" ∨ key = ascii "ctrl+c" ∨ key = ascii "esc"
    · simp only [model.Update, hq, if_true, Option.some.injEq] at hstep
      subst hstep
      exact ⟨hout, ⟨sel, hsel0⟩, hsel⟩
    · by_cases hsp : key = ascii " "
      · subst hsp
        cases hrow : m.table.SelectedRow[1]? with
        | none =>
          rw [Update_toggle_none nav m hrow] at hstep
          exact Option.noConfusion hstep
        | some thisDep =>
          rw [Update_toggle nav m thisDep hrow, Option.some.injEq] at hstep
          subst hstep
          obtain ⟨e, he, hname⟩ := SelectedRow_mem m.table outdated sel hsel0 thisDep hrow
          refine ⟨hout, ⟨some (if thisDep ∈ m.toUpdate then m.toUpdate.erase thisDep
            else insert thisDep m.toUpdate), ?_⟩, ?_⟩
          · rw [← hout]
            rfl
          · intro n hn
            dsimp only at hn
            split at hn
            · exact hsel n (Finset.mem_of_mem_erase hn)
            · rcases Finset.mem_insert.1 hn with rfl | hn
              · exact ⟨e, he, hname⟩
              · exact hsel n hn
      · by_cases hen : key = ascii "enter"
        · subst hen
          rw [Update_enter, Option.some.injEq] at hstep
          subst hstep
          exact ⟨hout, ⟨sel, hsel0⟩, hsel⟩
        · simp only [model.Update, table.Model.Update, hq, hsp, hen, if_false,
            Option.some.injEq] at hstep
          subst hstep
          exact ⟨hout, ⟨sel, hsel0⟩, hsel⟩

/-- The invariant of `Update_invariant` along a run of the interactive program. -/
theorem runUpdates_invariant (nav : table.Model → Msg → Int) (outdated : List outdatedDep)
    (msgs : List Msg) (m m2 : model)
    (hout : m.outdated = outdated)
    (hrows : ∃ sel, m.table.rows = renderRows outdated sel)
    (hsel : ∀ n ∈ m.toUpdate, ∃ e ∈ outdated, e.Name = n)
    (hrun : runUpdates nav m msgs = some m2) :
    m2.outdated = outdated ∧ (∃ sel, m2.table.rows = renderRows outdated sel) ∧
      ∀ n ∈ m2.toUpdate, ∃ e ∈ outdated, e.Name = n := by
  induction msgs generalizing m with
  | nil =>
    simp only [runUpdates, Option.some.injEq] at hrun
    subst hrun
    exact ⟨hout, hrows, hsel⟩
  | cons msg rest ih =>
    simp only [runUpdates] at hrun
    cases hstep : m.Update nav msg with
    | none => rw [hstep] at hrun; exact Option.noConfusion hrun
    | some r =>
      rw [hstep] at hrun
      obtain ⟨h1, h2, h3⟩ := Update_invariant nav outdated msg m r hout hrows hsel hstep
      exact ih r.1 h1 h2 h3 hrun


/-- Every message but the toggle key is handled, whatever the state: only the
toggle branch can panic. -/
theorem Update_handled (nav : table.Model → Msg → Int) (m : model) (msg : Msg)
    (h : msg ≠ Msg.KeyMsg (ascii " ")) : (m.Update nav msg).isSome = true := by
  cases msg with
  | other => rfl
  | KeyMsg key =>
    have hsp : ¬ key = ascii " " := fun heq => h (by rw [heq])
    simp only [model.Update, hsp, if_false]
    split
    · rfl
    · split <;> rfl

/-- C8: no dangling selections.  Whatever messages `Update` has handled since
the initial state of `main` (empty selection, rows rendered with a nil
selection), the entries are unchanged and every name in the selection set is
the name of an entry. -/
theorem no_dangling_selections (nav : table.Model → Msg → Int) (outdated : List outdatedDep)
    (msgs : List Msg) (m : model)
    (hrun : runUpdates nav (initialModel outdated) msgs = some m) :
    m.outdated = outdated ∧ ∀ n ∈ m.toUpdate, ∃ e ∈ outdated, e.Name = n := by
  have h := runUpdates_invariant nav outdated msgs (initialModel outdated) m rfl ⟨none, rfl⟩
    (by intro n hn; simp [initialModel] at hn) hrun
  exact ⟨h.1, h.2.2⟩

/-- An instance of C8: entries `a` and `b`; cursor down, toggle, so that `b` is
selected. -/
theorem no_dangling_selections_witness :
    runUpdates (fun t _ => t.cursor + 1)
      (initialModel [outdatedDep.mk (ascii "a") [] [] false, outdatedDep.mk (ascii "b") [] [] true])
      [Msg.KeyMsg (ascii "down"), Msg.KeyMsg (ascii " ")] =
      some { table :=
              { rows := renderRows
                  [outdatedDep.mk (ascii "a") [] [] false, outdatedDep.mk (ascii "b") [] [] true]
                  (some {ascii "b"})
                cursor := 1 }
             outdated :=
              [outdatedDep.mk (ascii "a") [] [] false, outdatedDep.mk (ascii "b") [] [] true]
             toUpdate := {ascii "b"}
             shouldInstall := false } ∧
    ∀ n ∈ ({ascii "b"} : Finset GoString),
      ∃ e ∈ [outdatedDep.mk (ascii "a") [] [] false, outdatedDep.mk (ascii "b") [] [] true],
        e.Name = n := by
  have hrun : runUpdates (fun t _ => t.cursor + 1)
      (initialModel [outdatedDep.mk (ascii "a") [] [] false, outdatedDep.mk (ascii "b") [] [] true])
      [Msg.KeyMsg (ascii "down"), Msg.KeyMsg (ascii " ")] =
      some { table :=
              { rows := renderRows
                  [outdatedDep.mk (ascii "a") [] [] false, outdatedDep.mk (ascii "b") [] [] true]
                  (some {ascii "b"})
                cursor := 1 }
             outdated :=
              [outdatedDep.mk (ascii "a") [] [] false, outdatedDep.mk (ascii "b") [] [] true]
             toUpdate := {ascii "b"}
             shouldInstall := false } := by
    decide
  exact ⟨hrun, (no_dangling_selections _ _ _ _ hrun).2⟩

/-- C9 fails on the code: when nothing is outdated the entry list is empty, the
table has no rows, and the toggle key makes `Update` panic at
`m.table.SelectedRow()[1]`, in the initial state and wherever the cursor is. -/
theorem Update_toggle_empty_list_panics (nav : table.Model → Msg → Int) (pj : packageJson)
    (cursor : Int) (toUpdate : Finset GoString) (shouldInstall : Bool) :
    getOutdated (some []) (some pj) = Except.ok [] ∧
    (initialModel []).table.rows = [] ∧
    (initialModel []).Update nav (Msg.KeyMsg (ascii " ")) = none ∧
    (model.mk (table.Model.mk [] cursor) [] toUpdate shouldInstall).Update nav
      (Msg.KeyMsg (ascii " ")) = none := by
  refine ⟨rfl, rfl, Update_toggle_none nav _ ?_, Update_toggle_none nav _ ?_⟩
  · rfl
  · simp only [table.Model.SelectedRow]
    split <;> rfl

/-- C10: in a state with `shouldInstall` false, each of `q`, `ctrl+c`, `esc`
returns the state unchanged together with the quit command, after which the
end of `main` runs no install; each of the four keys `q`, `ctrl+c`, `esc`,
`enter` returns the quit command and leaves the selection set, the entries and
the table unchanged, and `shouldInstall` is true afterwards if and only if the
key was `enter`. -/
theorem Update_cancel_and_confirm (nav : table.Model → Msg → Int) (m : model)
    (it : List GoString) (npm : List GoString → Bool) (hbrowse : m.shouldInstall = false) :
    (∀ key ∈ [ascii "q", ascii "ctrl+c", ascii "esc"],
      m.Update nav (Msg.KeyMsg key) = some (m, some Cmd.Quit)) ∧
    mainInstall m it npm = { invocations := [], exit := none } ∧
    (∀ key ∈ [ascii "q", ascii "ctrl+c", ascii "esc", ascii "enter"],
      ∃ m2, m.Update nav (Msg.KeyMsg key) = some (m2, some Cmd.Quit) ∧
        m2.toUpdate = m.toUpdate ∧ m2.outdated = m.outdated ∧ m2.table = m.table ∧
        (m2.shouldInstall = true ↔ key = ascii "enter")) := by
  have hcancel : ∀ key ∈ [ascii "q", ascii "ctrl+c", ascii "esc"],
      m.Update nav (Msg.KeyMsg key) = some (m, some Cmd.Quit) := by
    intro key hkey
    refine Update_cancel nav m key ?_
    simpa using hkey
  refine ⟨hcancel, ?_, ?_⟩
  · simp [mainInstall, hbrowse]
  · intro key hkey
    by_cases hen : key = ascii "enter"
    · subst hen
      exact ⟨_, Update_enter nav m, rfl, rfl, rfl, by simp⟩
    · have hkey2 : key ∈ [ascii "q", ascii "ctrl+c", ascii "esc"] := by
        simp only [List.mem_cons, List.mem_singleton, List.not_mem_nil, or_false] at hkey ⊢
        tauto
      exact ⟨m, hcancel key hkey2, rfl, rfl, rfl, by simp [hbrowse, hen]⟩

/-- An instance of C10, at the initial state of one entry. -/
theorem Update_cancel_and_confirm_witness :
    (initialModel [outdatedDep.mk (ascii "a") [] [] false]).shouldInstall = false ∧
    (initialModel [outdatedDep.mk (ascii "a") [] [] false]).Update (fun t _ => t.cursor)
      (Msg.KeyMsg (ascii "esc")) =
      some (initialModel [outdatedDep.mk (ascii "a") [] [] false], some Cmd.Quit) ∧
    mainInstall (initialModel [outdatedDep.mk (ascii "a") [] [] false]) [] (fun _ => true) =
      { invocations := [], exit := none } :=
  ⟨rfl,
   (Update_cancel_and_confirm (fun t _ => t.cursor)
      (initialModel [outdatedDep.mk (ascii "a") [] [] false]) [] (fun _ => true) rfl).1
      (ascii "esc") (by decide),
   (Update_cancel_and_confirm (fun t _ => t.cursor)
      (initialModel [outdatedDep.mk (ascii "a") [] [] false]) [] (fun _ => true) rfl).2.1⟩


/-! ## The installer -/

theorem depsToArgs_eq (deps : List GoString) :
    depsToArgs deps = deps.map (fun n => n ++ ascii "@latest") := by
  unfold depsToArgs
  rw [foldl_append_singleton]
  rfl

theorem splitDeps_foldl (outdated : List outdatedDep) (it : List GoString)
    (acc : List GoString × List GoString) :
    it.foldl
      (fun acc dep =>
        if isDevDep outdated dep then (acc.1, acc.2 ++ [dep]) else (acc.1 ++ [dep], acc.2))
      acc =
    (acc.1 ++ it.filter (fun n => !isDevDep outdated n),
      acc.2 ++ it.filter (fun n => isDevDep outdated n)) := by
  induction it generalizing acc with
  | nil => simp
  | cons x xs ih =>
    rw [List.foldl_cons, ih]
    cases h : isDevDep outdated x <;> simp [h]

/-- The two groups of `Install`: the selected names for which `isDevDep` is
false, and those for which it is true, each in the order of the iteration. -/
theorem splitDeps_eq (outdated : List outdatedDep) (it : List GoString) :
    splitDeps outdated it =
      (it.filter (fun n => !isDevDep outdated n), it.filter (fun n => isDevDep outdated n)) := by
  unfold splitDeps
  rw [splitDeps_foldl]
  rfl

/-- With distinct names `isDevDep` returns the `IsDev` flag of the entry of that name. -/
theorem isDevDep_of_mem (outdated : List outdatedDep)
    (hnames : (outdated.map outdatedDep.Name).Nodup) (e : outdatedDep) (he : e ∈ outdated) :
    isDevDep outdated e.Name = e.IsDev := by
  induction outdated with
  | nil => cases he
  | cons o rest ih =>
    rw [List.map_cons, List.nodup_cons] at hnames
    rcases List.mem_cons.1 he with rfl | he
    · simp [isDevDep]
    · have hne : o.Name ≠ e.Name := by
        intro heq
        exact hnames.1 (heq ▸ List.mem_map_of_mem outdatedDep.Name he)
      simp only [isDevDep, hne, if_false]
      exact ih hnames.2 he

/-- What `Install` does, by the two groups and the results of the invocations. -/
theorem Install_outcome (m : model) (it : List GoString) (npm : List GoString → Bool) :
    m.Install it npm =
      if (splitDeps m.outdated it).1 = [] then
        if (splitDeps m.outdated it).2 = [] then { invocations := [], exit := none }
        else if npm ([ascii "i", ascii "-D"] ++ depsToArgs (splitDeps m.outdated it).2) then
          { invocations := [[ascii "i", ascii "-D"] ++ depsToArgs (splitDeps m.outdated it).2],
            exit := none }
        else
          { invocations := [[ascii "i", ascii "-D"] ++ depsToArgs (splitDeps m.outdated it).2],
            exit := some 1 }
      else if npm ([ascii "i"] ++ depsToArgs (splitDeps m.outdated it).1) then
        if (splitDeps m.outdated it).2 = [] then
          { invocations := [[ascii "i"] ++ depsToArgs (splitDeps m.outdated it).1], exit := none }
        else if npm ([ascii "i", ascii "-D"] ++ depsToArgs (splitDeps m.outdated it).2) then
          { invocations := [[ascii "i"] ++ depsToArgs (splitDeps m.outdated it).1,
              [ascii "i", ascii "-D"] ++ depsToArgs (splitDeps m.outdated it).2],
            exit := none }
        else
          { invocations := [[ascii "i"] ++ depsToArgs (splitDeps m.outdated it).1,
              [ascii "i", ascii "-D"] ++ depsToArgs (splitDeps m.outdated it).2],
            exit := some 1 }
      else
        { invocations := [[ascii "i"] ++ depsToArgs (splitDeps m.outdated it).1], exit := some 1 } := by
  simp only [model.Install, runInstall]
  generalize (splitDeps m.outdated it).1 = deps
  generalize (splitDeps m.outdated it).2 = devDeps
  cases deps with
  | nil =>
    cases devDeps with
    | nil => simp
    | cons d ds =>
      cases h : npm ([ascii "i", ascii "-D"] ++ depsToArgs (d :: ds)) <;>
        simp only [List.cons_append, List.nil_append] at h <;> simp [h]
  | cons r rs =>
    cases h1 : npm ([ascii "i"] ++ depsToArgs (r :: rs)) <;>
      simp only [List.cons_append, List.nil_append] at h1
    · simp [h1]
    · cases devDeps with
      | nil => simp [h1]
      | cons d ds =>
        cases h : npm ([ascii "i", ascii "-D"] ++ depsToArgs (d :: ds)) <;>
          simp only [List.cons_append, List.nil_append] at h <;> simp [h1, h]


theorem mem_runtime_group (m : model) (it : List GoString)
    (hnames : (m.outdated.map outdatedDep.Name).Nodup)
    (hsel : ∀ n ∈ m.toUpdate, ∃ e ∈ m.outdated, e.Name = n)
    (hit : it.toFinset = m.toUpdate) (b : Bool) (n : GoString) :
    (n ∈ it ∧ isDevDep m.outdated n = b) ↔
      n ∈ m.toUpdate ∧ ∃ e ∈ m.outdated, e.Name = n ∧ e.IsDev = b := by
  have hmem : n ∈ it ↔ n ∈ m.toUpdate := by rw [← hit, List.mem_toFinset]
  constructor
  · rintro ⟨h1, h2⟩
    obtain ⟨e, he, hname⟩ := hsel n (hmem.1 h1)
    refine ⟨hmem.1 h1, e, he, hname, ?_⟩
    rw [← h2, ← hname, isDevDep_of_mem m.outdated hnames e he]
  · rintro ⟨h1, e, he, hname, hdev⟩
    refine ⟨hmem.2 h1, ?_⟩
    rw [← hname, isDevDep_of_mem m.outdated hnames e he, hdev]

/-- C5: with distinct entry names, every selected name the name of an entry, and
`it` an enumeration of the selection set in any order, the names `Install`
passes on form a runtime group (the selected names whose entry has `IsDev`
false) and a dev group (those whose entry has `IsDev` true), every selected
name in exactly one of them.  The invocations are the runtime invocation
(`i name@latest ...`, when the runtime group is not empty) followed by the dev
invocation (`i -D name@latest ...`, when the dev group is not empty) and no
other; only when the runtime invocation fails does the sequence end after
it. -/
theorem Install_invocations (m : model) (it : List GoString) (npm : List GoString → Bool)
    (hnames : (m.outdated.map outdatedDep.Name).Nodup)
    (hsel : ∀ n ∈ m.toUpdate, ∃ e ∈ m.outdated, e.Name = n)
    (hnodup : it.Nodup) (hit : it.toFinset = m.toUpdate) :
    ∃ runtime dev : List GoString,
      runtime.Nodup ∧ dev.Nodup ∧
      (∀ n, n ∈ runtime ↔ n ∈ m.toUpdate ∧ ∃ e ∈ m.outdated, e.Name = n ∧ e.IsDev = false) ∧
      (∀ n, n ∈ dev ↔ n ∈ m.toUpdate ∧ ∃ e ∈ m.outdated, e.Name = n ∧ e.IsDev = true) ∧
      (∀ n ∈ m.toUpdate, (n ∈ runtime ∧ n ∉ dev) ∨ (n ∈ dev ∧ n ∉ runtime)) ∧
      (m.Install it npm).invocations =
        if (runtimeInvocation runtime).all npm then runtimeInvocation runtime ++ devInvocation dev
        else runtimeInvocation runtime := by
  refine ⟨it.filter (fun n => !isDevDep m.outdated n), it.filter (fun n => isDevDep m.outdated n),
    hnodup.filter _, hnodup.filter _, ?_, ?_, ?_, ?_⟩
  · intro n
    rw [← mem_runtime_group m it hnames hsel hit false n]
    simp
  · intro n
    rw [← mem_runtime_group m it hnames hsel hit true n]
    simp
  · intro n hn
    have hmem : n ∈ it := by rw [← List.mem_toFinset, hit]; exact hn
    cases h : isDevDep m.outdated n <;> simp [hmem, h]
  · rw [Install_outcome, splitDeps_eq, depsToArgs_eq, depsToArgs_eq]
    simp only [runtimeInvocation, devInvocation]
    generalize it.filter (fun n => !isDevDep m.outdated n) = runtime
    generalize it.filter (fun n => isDevDep m.outdated n) = dev
    by_cases hr : runtime = []
    · by_cases hd : dev = []
      · simp [hr, hd]
      · cases h : npm ([ascii "i", ascii "-D"] ++ dev.map (fun n => n ++ ascii "@latest")) <;>
          simp [hr, hd]
    · cases h1 : npm ([ascii "i"] ++ runtime.map (fun n => n ++ ascii "@latest"))
      · simp only [List.cons_append, List.nil_append] at h1
        simp [hr, h1]
      · simp only [List.cons_append, List.nil_append] at h1
        by_cases hd : dev = []
        · simp [hr, hd, h1]
        · cases h : npm ([ascii "i", ascii "-D"] ++ dev.map (fun n => n ++ ascii "@latest")) <;>
            simp [hr, hd, h1]

/-- The scenario of C5: entries `a` (runtime) and `b` (dev), only `b` selected:
exactly one invocation, `i -D b@latest`. -/
theorem Install_invocations_witness :
    (model.Install
      { table := { rows := [], cursor := 0 }
        outdated := [outdatedDep.mk (ascii "a") [] [] false, outdatedDep.mk (ascii "b") [] [] true]
        toUpdate := {ascii "b"}
        shouldInstall := true }
      [ascii "b"] (fun _ => true)).invocations = [[ascii "i", ascii "-D", ascii "b@latest"]] ∧
    ∃ runtime dev : List GoString,
      runtime.Nodup ∧ dev.Nodup ∧
      (∀ n, n ∈ runtime ↔ n ∈ ({ascii "b"} : Finset GoString) ∧
        ∃ e ∈ [outdatedDep.mk (ascii "a") [] [] false, outdatedDep.mk (ascii "b") [] [] true],
          e.Name = n ∧ e.IsDev = false) ∧
      (∀ n, n ∈ dev ↔ n ∈ ({ascii "b"} : Finset GoString) ∧
        ∃ e ∈ [outdatedDep.mk (ascii "a") [] [] false, outdatedDep.mk (ascii "b") [] [] true],
          e.Name = n ∧ e.IsDev = true) ∧
      (∀ n ∈ ({ascii "b"} : Finset GoString), (n ∈ runtime ∧ n ∉ dev) ∨ (n ∈ dev ∧ n ∉ runtime)) ∧
      (model.Install
        { table := { rows := [], cursor := 0 }
          outdated := [outdatedDep.mk (ascii "a") [] [] false, outdatedDep.mk (ascii "b") [] [] true]
          toUpdate := {ascii "b"}
          shouldInstall := true }
        [ascii "b"] (fun _ => true)).invocations =
        if (runtimeInvocation runtime).all (fun _ => true) then
          runtimeInvocation runtime ++ devInvocation dev
        else runtimeInvocation runtime :=
  ⟨by decide,
   Install_invocations
      { table := { rows := [], cursor := 0 }
        outdated := [outdatedDep.mk (ascii "a") [] [] false, outdatedDep.mk (ascii "b") [] [] true]
        toUpdate := {ascii "b"}
        shouldInstall := true }
      [ascii "b"] (fun _ => true) (by decide) (by decide) (by decide) (by decide)⟩

/-- C6: when the selection set is empty, `Install` issues no invocation and
returns, whatever the entries, and so does the end of `main`. -/
theorem Install_empty_selection (m : model) (it : List GoString) (npm : List GoString → Bool)
    (hit : it.toFinset = m.toUpdate) (hempty : m.toUpdate = ∅) :
    m.Install it npm = { invocations := [], exit := none } ∧
    mainInstall m it npm = { invocations := [], exit := none } := by
  have hnil : it = [] := by
    rw [hempty] at hit
    exact (List.toFinset_eq_empty_iff it).1 hit
  subst hnil
  have h : model.Install m [] npm = { invocations := [], exit := none } := by
    rw [Install_outcome, splitDeps_eq]
    simp
  refine ⟨h, ?_⟩
  unfold mainInstall
  split
  · exact h
  · rfl

/-- An instance of C6: enter pressed in the initial state of two entries. -/
theorem Install_empty_selection_witness :
    model.Install
      { table := { rows := [], cursor := 0 }
        outdated := [outdatedDep.mk (ascii "a") [] [] false, outdatedDep.mk (ascii "b") [] [] true]
        toUpdate := ∅
        shouldInstall := true }
      [] (fun _ => false) = { invocations := [], exit := none } :=
  (Install_empty_selection
      { table := { rows := [], cursor := 0 }
        outdated := [outdatedDep.mk (ascii "a") [] [] false, outdatedDep.mk (ascii "b") [] [] true]
        toUpdate := ∅
        shouldInstall := true }
      [] (fun _ => false) (by decide) rfl).1

/-- C7: `Install` ends the process with exit code 1 or returns.  When the
runtime group is not empty and its invocation fails, that invocation is the
only one issued (the dev invocation is not) and the exit code is 1; and when
any issued invocation fails the exit code is 1. -/
theorem Install_failure (m : model) (it : List GoString) (npm : List GoString → Bool) :
    ((m.Install it npm).exit = none ∨ (m.Install it npm).exit = some 1) ∧
    (it.filter (fun n => !isDevDep m.outdated n) ≠ [] →
      npm ([ascii "i"] ++
        (it.filter (fun n => !isDevDep m.outdated n)).map (fun n => n ++ ascii "@latest")) = false →
      m.Install it npm =
        { invocations := [[ascii "i"] ++
            (it.filter (fun n => !isDevDep m.outdated n)).map (fun n => n ++ ascii "@latest")],
          exit := some 1 }) ∧
    ((∃ args ∈ (m.Install it npm).invocations, npm args = false) →
      (m.Install it npm).exit = some 1) ∧
    ((m.Install it npm).exit = some 1 →
      ∃ args ∈ (m.Install it npm).invocations, npm args = false) := by
  rw [Install_outcome, splitDeps_eq, depsToArgs_eq, depsToArgs_eq]
  generalize it.filter (fun n => !isDevDep m.outdated n) = runtime
  generalize it.filter (fun n => isDevDep m.outdated n) = dev
  by_cases hr : runtime = []
  · by_cases hd : dev = []
    · simp [hr, hd]
    · cases h : npm ([ascii "i", ascii "-D"] ++ dev.map (fun n => n ++ ascii "@latest")) <;>
        simp only [List.cons_append, List.nil_append] at h <;> simp [hr, hd, h]
  · cases h1 : npm ([ascii "i"] ++ runtime.map (fun n => n ++ ascii "@latest")) <;>
      simp only [List.cons_append, List.nil_append] at h1
    · simp [hr, h1]
    · by_cases hd : dev = []
      · simp [hr, hd, h1]
      · cases h : npm ([ascii "i", ascii "-D"] ++ dev.map (fun n => n ++ ascii "@latest")) <;>
          simp only [List.cons_append, List.nil_append] at h <;> simp [hr, hd, h1, h]

/-- The scenario of C7: `a` (runtime) and `b` (dev) selected, the command
fails: one invocation, `i a@latest`, and exit code 1. -/
theorem Install_failure_witness :
    model.Install
      { table := { rows := [], cursor := 0 }
        outdated := [outdatedDep.mk (ascii "a") [] [] false, outdatedDep.mk (ascii "b") [] [] true]
        toUpdate := {ascii "a", ascii "b"}
        shouldInstall := true }
      [ascii "b", ascii "a"] (fun _ => false) =
    { invocations := [[ascii "i", ascii "a@latest"]], exit := some 1 } :=
  (Install_failure
      { table := { rows := [], cursor := 0 }
        outdated := [outdatedDep.mk (ascii "a") [] [] false, outdatedDep.mk (ascii "b") [] [] true]
        toUpdate := {ascii "a", ascii "b"}
        shouldInstall := true }
      [ascii "b", ascii "a"] (fun _ => false)).2.1 (by decide) rfl

end Oitsuku
